import Mathlib

/-!
Shallow embedding of `pmtproc.py`, a passive GiveSendGo traffic monitor:
slug extraction, registrable-domain reduction, the stop-signal state
machine, the report builder and the exit-code logic, with theorems
checking the documented behaviour of each piece.

Python strings are modelled as `List Char`; `str.lower` is the ASCII
case mapping (`Char.toLower`), which agrees with Python on every
character the tool manipulates.
-/

namespace Pmtproc

/-- Python `str.lower`, character-wise (ASCII range). -/
def lowerStr (s : List Char) : List Char := s.map Char.toLower

/-- The whitespace set of Python's default `str.strip()`. -/
def isSpaceChar (c : Char) : Bool :=
  c = ' ' || c = '\t' || c = '\n' || c = '\r' || c = '\x0b' || c = '\x0c'

/-- Python `str.strip()`: drop whitespace from both ends. -/
def pyStrip (s : List Char) : List Char :=
  ((s.dropWhile isSpaceChar).reverse.dropWhile isSpaceChar).reverse

/-- Python `str.lstrip(cut)`: drop the leading characters that belong to
the character set `cut` (not the prefix `cut` as a string). -/
def pyLstrip (cut : List Char) (s : List Char) : List Char :=
  s.dropWhile (fun c => decide (c ∈ cut))

/-- The delimiters ending the regex group `[^/?#]+` of `extract_slug`. -/
def isDelim (c : Char) : Bool := c = '/' || c = '?' || c = '#'

/-- The literal part of the pattern `givesendgo\.com/([^/?#]+)`. -/
def gsgPat : List Char := "givesendgo.com/".toList

/-- Does `re.search(r"givesendgo\.com/([^/?#]+)", s, re.I)` match at the
head of `s`?  The capture group needs at least one non-delimiter
character after the 15-character literal. -/
def matchAt (s : List Char) : Bool :=
  if lowerStr (s.take 15) = gsgPat then
    match s.drop 15 with
    | [] => false
    | c :: _ => !(isDelim c)
  else false

/-- Leftmost regex match: the captured group of the first position where
the pattern matches, scanning left to right the way `re.search` does. -/
def scanSlug : List Char → Option (List Char)
  | [] => none
  | c :: cs =>
    if matchAt (c :: cs) then
      some (((c :: cs).drop 15).takeWhile (fun d => !(isDelim d)))
    else scanSlug cs

/-- `extract_slug` from pmtproc.py: the captured group when the pattern
matches somewhere, else the stripped input. -/
def extract_slug (target : List Char) : List Char :=
  match scanSlug target with
  | some x => x
  | none => pyStrip target

/-- Python `str.split('.')`. -/
def splitOnDot : List Char → List (List Char)
  | [] => [[]]
  | c :: cs =>
    if c = '.' then [] :: splitOnDot cs
    else
      match splitOnDot cs with
      | [] => [[c]]
      | p :: ps => (c :: p) :: ps

/-- Python `'.'.join`. -/
def joinDots : List (List Char) → List Char
  | [] => []
  | [p] => p
  | p :: q :: ps => p ++ '.' :: joinDots (q :: ps)

/-- The character set handed to `lstrip` inside `reg_domain`. -/
def wwwChars : List Char := "www.".toList

/-- `reg_domain` from pmtproc.py on its fallback path (`_tx is None`,
i.e. the public-suffix dataset is unavailable): lowercase,
`lstrip("www.")`, then the join of the last two dot-separated labels
when there are at least two, else the processed netloc itself. -/
def reg_domain (netloc : List Char) : List Char :=
  let n := pyLstrip wwwChars (lowerStr netloc)
  let parts := splitOnDot n
  if 2 ≤ parts.length then joinDots (parts.drop (parts.length - 2)) else n

/-! ## The capture session's shutdown coordination

The three termination triggers of `main`, acting on the session state:
the page-close handler closes the context and sets the stop event, the
browser-disconnect handler sets the stop event, and a `KeyboardInterrupt`
caught in the wait loop exits the loop without touching the event.  The
cleanup block after the loop runs once, unconditionally. -/

/-- The mutable session state of `main`: the `threading.Event` stop flag,
whether the browsing context has been closed (the HAR flushed), whether a
`KeyboardInterrupt` broke the wait loop, and how many times the cleanup
block has run. -/
structure SessState where
  stop : Bool
  ctxClosed : Bool
  interrupted : Bool
  teardownRuns : Nat
deriving DecidableEq

/-- State at session start: event unset, context open, no interrupt,
cleanup not yet run. -/
def initState : SessState := ⟨false, false, false, 0⟩

/-- The three termination triggers observed by `main`. -/
inductive Ev
  | pageClose
  | disconnect
  | interrupt
deriving DecidableEq

/-- `_on_page_close`: flush the HAR by closing the context, then set the
stop event. -/
def onPageClose (s : SessState) : SessState :=
  { s with ctxClosed := true, stop := true }

/-- `_on_browser_disconnected`: set the stop event. -/
def onDisconnect (s : SessState) : SessState :=
  { s with stop := true }

/-- `KeyboardInterrupt` caught around the wait loop: the loop ends but
the stop event is not written. -/
def onInterrupt (s : SessState) : SessState :=
  { s with interrupted := true }

/-- Deliver one trigger to the session state. -/
def applyEv (s : SessState) : Ev → SessState
  | .pageClose => onPageClose s
  | .disconnect => onDisconnect s
  | .interrupt => onInterrupt s

/-- Deliver a finite trace of triggers in order. -/
def runTrace (s : SessState) (evs : List Ev) : SessState :=
  evs.foldl applyEv s

/-- The wait loop `while not stop_event.wait(0.2)` has ended: either the
event is set or an interrupt was caught. -/
def loopDone (s : SessState) : Bool := s.stop || s.interrupted

/-- The cleanup block after the wait loop: close the context again
(idempotent, errors swallowed) and run the teardown sequence once. -/
def teardown (s : SessState) : SessState :=
  { s with ctxClosed := true, teardownRuns := s.teardownRuns + 1 }

/-- A whole session: the triggers of the trace arrive, then the cleanup
block runs exactly once. -/
def sessionRun (evs : List Ev) : SessState :=
  teardown (runTrace initState evs)

/-! ## CLI gate, report builder and exit codes -/

/-- The usage line printed when no argument is given. -/
def usageMessage : List Char := "Usage: pmtproc.py <slug|url>".toList

/-- The observable outcome of `main`'s control flow around `sys.exit`:
what (if anything) the usage gate prints, and the process exit code.
`argc` is `len(sys.argv)`, `harExists` whether the HAR file is on disk at
the end of the run, `matched` the matched-URL list. -/
def mainExit (argc : Nat) (harExists : Bool) (matched : List (List Char)) :
    Option (List Char) × Nat :=
  if argc < 2 then (some usageMessage, 1)
  else if !matched.isEmpty then (none, if harExists then 0 else 1)
  else (none, if harExists then 0 else 1)

/-- Python `u.startswith("http")`. -/
def startsHttp : List Char → Bool
  | 'h' :: 't' :: 't' :: 'p' :: _ => true
  | _ => false

/-- Python string `<`: lexicographic comparison of code points. -/
def lexLt : List Char → List Char → Bool
  | _, [] => false
  | [], _ :: _ => true
  | a :: as, b :: bs =>
    if a < b then true
    else if b < a then false
    else lexLt as bs

/-- Insert into a strictly sorted list, keeping it sorted and dropping
the element when it is already present. -/
def insUniq (x : List Char) : List (List Char) → List (List Char)
  | [] => [x]
  | y :: ys =>
    if x = y then y :: ys
    else if lexLt x y then x :: y :: ys
    else y :: insUniq x ys

/-- Python `sorted({u for u in l})`: the distinct elements in increasing
lexicographic order. -/
def sortedSet (l : List (List Char)) : List (List Char) :=
  l.foldr insUniq []

/-- `unique_urls` of the final report: keep the strings that start with
`"http"`, deduplicate, sort. -/
def unique_urls (matched : List (List Char)) : List (List Char) :=
  sortedSet (matched.filter startsHttp)

/-- One `Counter` update: bump the count of a present key, else append
the key with count 1 (dict insertion order preserved). -/
def tallyAdd (acc : List (List Char × Nat)) (d : List Char) :
    List (List Char × Nat) :=
  if acc.any (fun p => decide (p.1 = d)) then
    acc.map (fun p => if p.1 = d then (p.1, p.2 + 1) else p)
  else acc ++ [(d, 1)]

/-- `collections.Counter(l)` as an association list in key-insertion
(first occurrence) order. -/
def counter (l : List (List Char)) : List (List Char × Nat) :=
  l.foldl tallyAdd []

/-- Insert into a list already sorted by descending count, placing the
new element before the first entry whose count does not exceed it — the
insertion step of a stable descending sort. -/
def insertDesc {α : Type} (x : α × Nat) : List (α × Nat) → List (α × Nat)
  | [] => [x]
  | y :: ys =>
    if y.2 ≤ x.2 then x :: y :: ys
    else y :: insertDesc x ys

/-- Stable sort by descending count — the documented behaviour of
CPython's `Counter.most_common()` (`sorted(items, key=count,
reverse=True)` with a stable sort). -/
def sortDesc {α : Type} : List (α × Nat) → List (α × Nat)
  | [] => []
  | x :: xs => insertDesc x (sortDesc xs)

/-- `domain_counts.most_common()` over the discovered-domain list. -/
def most_common (l : List (List Char)) : List (List Char × Nat) :=
  sortDesc (counter l)

/-! ## HAR output path -/

/-- The fixed output directory `HAR_DIR`. -/
def HAR_DIR : List Char := "/home/chris/openpilot/tools/bin".toList

/-- The file-name part of `HAR_DIR / f"pmtproc_{slug}_monitor.har"`. -/
def harFileName (target : List Char) : List Char :=
  "pmtproc_".toList ++ extract_slug target ++ "_monitor.har".toList

/-- The full HAR path: `pathlib`'s `/` joins the directory and the
(relative) name with a single separator. -/
def harPath (target : List Char) : List Char :=
  HAR_DIR ++ '/' :: harFileName target

/-- `p` is a direct child of directory `dir`: one more component, itself
free of separators. -/
def isDirectChild (dir p : List Char) : Prop :=
  ∃ name, p = dir ++ '/' :: name ∧ '/' ∉ name

/-! ## Theorems: the stop signal (C2) -/

/-- Each trigger keeps an already-set stop event set. -/
theorem applyEv_stop_of_stop {s : SessState} (e : Ev) (h : s.stop = true) :
    (applyEv s e).stop = true := by
  cases e <;> simp [applyEv, onPageClose, onDisconnect, onInterrupt, h]

/-- A trace of triggers keeps an already-set stop event set. -/
theorem runTrace_stop_of_stop {s : SessState} {evs : List Ev} (h : s.stop = true) :
    (runTrace s evs).stop = true := by
  induction evs generalizing s with
  | nil => exact h
  | cons e es ih => exact ih (applyEv_stop_of_stop e h)

/-- No trigger touches the teardown counter. -/
theorem applyEv_teardownRuns (s : SessState) (e : Ev) :
    (applyEv s e).teardownRuns = s.teardownRuns := by
  cases e <;> rfl

/-- No trace of triggers touches the teardown counter. -/
theorem runTrace_teardownRuns (s : SessState) (evs : List Ev) :
    (runTrace s evs).teardownRuns = s.teardownRuns := by
  induction evs generalizing s with
  | nil => rfl
  | cons e es ih =>
    calc (runTrace (applyEv s e) es).teardownRuns
        = (applyEv s e).teardownRuns := ih (applyEv s e)
      _ = s.teardownRuns := applyEv_teardownRuns s e

/-- C2 counterexample: the operator-interrupt handling path does not set
the Stop Signal — delivering the interrupt trigger to the fresh session
state leaves the stop event unset, refuting "settable by each of three
producers". -/
theorem interrupt_does_not_set_stop :
    (applyEv initState Ev.interrupt).stop = false := by decide

/-- C2 (amended): the Stop Signal is set by the page-close and
browser-disconnect handlers, while the operator interrupt leaves it
untouched (it only ends the wait loop); once set it is never unset by
any trace of triggers; a producer firing twice leaves the state exactly
as after its first firing; and the teardown block runs exactly once per
session whatever the trace was. -/
theorem stop_signal_amended :
    (∀ s : SessState,
      (applyEv s Ev.pageClose).stop = true ∧
      (applyEv s Ev.disconnect).stop = true ∧
      (applyEv s Ev.interrupt).stop = s.stop) ∧
    (∀ (s : SessState) (evs : List Ev), s.stop = true → (runTrace s evs).stop = true) ∧
    (∀ s : SessState,
      applyEv (applyEv s Ev.pageClose) Ev.pageClose = applyEv s Ev.pageClose ∧
      applyEv (applyEv s Ev.disconnect) Ev.disconnect = applyEv s Ev.disconnect ∧
      (applyEv (applyEv s Ev.pageClose) Ev.disconnect).stop = (applyEv s Ev.pageClose).stop) ∧
    (∀ evs : List Ev, (sessionRun evs).teardownRuns = 1) := by
  refine ⟨fun s => ⟨rfl, rfl, rfl⟩, fun s evs h => runTrace_stop_of_stop h, fun s => ⟨rfl, rfl, rfl⟩, fun evs => ?_⟩
  show (runTrace initState evs).teardownRuns + 1 = 1
  rw [runTrace_teardownRuns]
  rfl

/-- The once-set-never-unset conjunct of `stop_signal_amended`, applied
at a concrete already-stopped state and a concrete trace. -/
theorem stop_signal_amended_witness :
    (runTrace ⟨true, false, false, 0⟩ [Ev.interrupt, Ev.pageClose, Ev.disconnect]).stop = true :=
  stop_signal_amended.2.1 ⟨true, false, false, 0⟩ [Ev.interrupt, Ev.pageClose, Ev.disconnect] rfl

/-! ## Theorems: exit codes (C3) -/

/-- C3: the process exit code is 0 exactly when an argument was supplied
and the HAR file exists, 1 exactly when the argument was missing or the
HAR file is missing — independent of the matched-URL list — and with no
argument the usage message is printed and the exit code is 1. -/
theorem exit_code_spec (argc : Nat) (harExists : Bool) (matched : List (List Char)) :
    ((mainExit argc harExists matched).2 = 0 ↔ 2 ≤ argc ∧ harExists = true) ∧
    ((mainExit argc harExists matched).2 = 1 ↔ argc < 2 ∨ harExists = false) ∧
    (argc < 2 → mainExit argc harExists matched = (some usageMessage, 1)) := by
  by_cases h : argc < 2 <;> cases harExists <;>
    (simp [mainExit, h]; try omega)

/-! ## Theorems: the domain-count table (C6) -/

/-- Membership through descending insertion. -/
theorem mem_insertDesc {α : Type} (x : α × Nat) (l : List (α × Nat)) (z : α × Nat) :
    z ∈ insertDesc x l ↔ z = x ∨ z ∈ l := by
  induction l with
  | nil => simp [insertDesc]
  | cons y ys ih =>
    by_cases h : y.2 ≤ x.2
    · simp only [insertDesc, if_pos h, List.mem_cons]
    · simp only [insertDesc, if_neg h, List.mem_cons, ih]
      tauto

/-- Descending insertion preserves the sorted-by-descending-count
invariant. -/
theorem pairwise_insertDesc {α : Type} (x : α × Nat) (l : List (α × Nat))
    (hl : l.Pairwise (fun a b => b.2 ≤ a.2)) :
    (insertDesc x l).Pairwise (fun a b => b.2 ≤ a.2) := by
  induction l with
  | nil => simp [insertDesc]
  | cons y ys ih =>
    rcases List.pairwise_cons.1 hl with ⟨hy, hys⟩
    by_cases h : y.2 ≤ x.2
    · rw [insertDesc, if_pos h]
      refine List.pairwise_cons.2 ⟨?_, hl⟩
      intro z hz
      rcases List.mem_cons.1 hz with rfl | hz'
      · exact h
      · exact Nat.le_trans (hy z hz') h
    · rw [insertDesc, if_neg h]
      refine List.pairwise_cons.2 ⟨?_, ih hys⟩
      intro z hz
      rcases (mem_insertDesc x ys z).1 hz with rfl | hz'
      · omega
      · exact hy z hz'

/-- Filtering by one count value commutes with descending insertion:
the inserted element lands in front of the equal-count block. -/
theorem filter_insertDesc {α : Type} (c : Nat) (x : α × Nat) (l : List (α × Nat)) :
    (insertDesc x l).filter (fun p => p.2 == c) =
      if x.2 = c then x :: l.filter (fun p => p.2 == c)
      else l.filter (fun p => p.2 == c) := by
  induction l with
  | nil =>
    by_cases h : x.2 = c <;> simp [insertDesc, List.filter_cons, h]
  | cons y ys ih =>
    by_cases h : y.2 ≤ x.2
    · rw [insertDesc, if_pos h]
      by_cases hx : x.2 = c <;> simp [List.filter_cons, hx]
    · rw [insertDesc, if_neg h]
      by_cases hy : y.2 = c <;> by_cases hx : x.2 = c
      · omega
      · simp [List.filter_cons, hy, hx, ih]
      · simp [List.filter_cons, hy, hx, ih]
      · simp [List.filter_cons, hy, hx, ih]

/-- The stable descending sort leaves each equal-count block in its
original order. -/
theorem filter_sortDesc {α : Type} (c : Nat) (l : List (α × Nat)) :
    (sortDesc l).filter (fun p => p.2 == c) = l.filter (fun p => p.2 == c) := by
  induction l with
  | nil => rfl
  | cons x xs ih =>
    rw [sortDesc, filter_insertDesc, ih]
    by_cases hx : x.2 = c <;> simp [List.filter_cons, hx]

/-- The stable descending sort sorts. -/
theorem pairwise_sortDesc {α : Type} (l : List (α × Nat)) :
    (sortDesc l).Pairwise (fun a b => b.2 ≤ a.2) := by
  induction l with
  | nil => simp [sortDesc]
  | cons x xs ih => exact pairwise_insertDesc x _ ih

/-- C6: the displayed domain-count table `most_common` is in descending
count order, and ties keep insertion (first-discovery) order: for every
count value, the entries holding that count appear exactly as the
`Counter` discovered them. -/
theorem most_common_order_spec (l : List (List Char)) :
    (most_common l).Pairwise (fun a b => b.2 ≤ a.2) ∧
    ∀ c : Nat, (most_common l).filter (fun p => p.2 == c) =
      (counter l).filter (fun p => p.2 == c) :=
  ⟨pairwise_sortDesc (counter l), fun c => filter_sortDesc c (counter l)⟩

/-! ## Theorems: the unique-URL report (C7) -/

/-- Head characterisation of the lexicographic string order. -/
theorem lexLt_cons {x y : Char} {xs ys : List Char} :
    lexLt (x :: xs) (y :: ys) = true ↔ x < y ∨ (x = y ∧ lexLt xs ys = true) := by
  rcases lt_trichotomy x y with h | h | h
  · rw [lexLt, if_pos h]
    simp [h]
  · subst h
    rw [lexLt, if_neg (lt_irrefl x), if_neg (lt_irrefl x)]
    simp
  · rw [lexLt, if_neg (lt_asymm h), if_pos h]
    simp [ne_of_gt h, not_lt_of_gt h]

/-- The lexicographic string order never holds reflexively. -/
theorem lexLt_irrefl (a : List Char) : lexLt a a = false := by
  induction a with
  | nil => rfl
  | cons x xs ih =>
    rw [lexLt, if_neg (lt_irrefl x), if_neg (lt_irrefl x)]
    exact ih

/-- The lexicographic string order is total up to equality. -/
theorem lexLt_total (a b : List Char) :
    a = b ∨ lexLt a b = true ∨ lexLt b a = true := by
  induction a generalizing b with
  | nil =>
    cases b with
    | nil => exact Or.inl rfl
    | cons y ys => exact Or.inr (Or.inl rfl)
  | cons x xs ih =>
    cases b with
    | nil => exact Or.inr (Or.inr rfl)
    | cons y ys =>
      rcases lt_trichotomy x y with h | h | h
      · exact Or.inr (Or.inl (lexLt_cons.2 (Or.inl h)))
      · subst h
        rcases ih ys with rfl | h | h
        · exact Or.inl rfl
        · exact Or.inr (Or.inl (lexLt_cons.2 (Or.inr ⟨rfl, h⟩)))
        · exact Or.inr (Or.inr (lexLt_cons.2 (Or.inr ⟨rfl, h⟩)))
      · exact Or.inr (Or.inr (lexLt_cons.2 (Or.inl h)))

/-- Nothing is lexicographically below the empty string. -/
theorem lexLt_nil_right (a : List Char) : lexLt a [] = false := by
  cases a <;> rfl

/-- The lexicographic string order is transitive. -/
theorem lexLt_trans : ∀ {a b c : List Char},
    lexLt a b = true → lexLt b c = true → lexLt a c = true
  | _, _, [], _, h2 => by rw [lexLt_nil_right] at h2; cases h2
  | _, [], _ :: _, h1, _ => by rw [lexLt_nil_right] at h1; cases h1
  | [], _ :: _, _ :: _, _, _ => rfl
  | x :: xs, y :: ys, z :: zs, h1, h2 => by
    rcases lexLt_cons.1 h1 with hxy | ⟨rfl, hxy⟩ <;>
      rcases lexLt_cons.1 h2 with hyz | ⟨rfl, hyz⟩
    · exact lexLt_cons.2 (Or.inl (lt_trans hxy hyz))
    · exact lexLt_cons.2 (Or.inl hxy)
    · exact lexLt_cons.2 (Or.inl hyz)
    · exact lexLt_cons.2 (Or.inr ⟨rfl, lexLt_trans hxy hyz⟩)

/-- Membership through sorted-set insertion. -/
theorem mem_insUniq (x : List Char) (l : List (List Char)) (z : List Char) :
    z ∈ insUniq x l ↔ z = x ∨ z ∈ l := by
  induction l with
  | nil => simp [insUniq]
  | cons y ys ih =>
    by_cases he : x = y
    · subst he
      rw [insUniq, if_pos rfl]
      simp only [List.mem_cons]
      tauto
    · by_cases hlt : lexLt x y = true
      · rw [insUniq, if_neg he, if_pos hlt]
        simp only [List.mem_cons]
      · rw [insUniq, if_neg he, if_neg hlt]
        simp only [List.mem_cons, ih]
        tauto

/-- Sorted-set insertion preserves strict lexicographic sortedness. -/
theorem pairwise_insUniq (x : List Char) (l : List (List Char))
    (hl : l.Pairwise (fun a b => lexLt a b = true)) :
    (insUniq x l).Pairwise (fun a b => lexLt a b = true) := by
  induction l with
  | nil => simp [insUniq]
  | cons y ys ih =>
    rcases List.pairwise_cons.1 hl with ⟨hy, hys⟩
    by_cases he : x = y
    · subst he
      rw [insUniq, if_pos rfl]
      exact hl
    · by_cases hlt : lexLt x y = true
      · rw [insUniq, if_neg he, if_pos hlt]
        refine List.pairwise_cons.2 ⟨?_, hl⟩
        intro z hz
        rcases List.mem_cons.1 hz with rfl | hz'
        · exact hlt
        · exact lexLt_trans hlt (hy z hz')
      · rw [insUniq, if_neg he, if_neg hlt]
        refine List.pairwise_cons.2 ⟨?_, ih hys⟩
        intro z hz
        rcases (mem_insUniq x ys z).1 hz with rfl | hz'
        · rcases lexLt_total z y with rfl | h | h
          · exact absurd rfl he
          · exact absurd h hlt
          · exact h
        · exact hy z hz'

/-- Membership in the sorted set is membership in the underlying list. -/
theorem mem_sortedSet (l : List (List Char)) (u : List Char) :
    u ∈ sortedSet l ↔ u ∈ l := by
  induction l with
  | nil => simp [sortedSet]
  | cons a as ih =>
    show u ∈ insUniq a (sortedSet as) ↔ _
    rw [mem_insUniq, ih]
    simp

/-- The sorted set is strictly sorted. -/
theorem pairwise_sortedSet (l : List (List Char)) :
    (sortedSet l).Pairwise (fun a b => lexLt a b = true) := by
  induction l with
  | nil => simp [sortedSet]
  | cons a as ih => exact pairwise_insUniq a _ ih

/-- C7: the report keeps exactly the matched entries that start with the
recognised scheme marker `"http"`, holds no duplicates, and is sorted in
increasing lexicographic order. -/
theorem unique_urls_spec (matched : List (List Char)) :
    (∀ u, u ∈ unique_urls matched ↔ u ∈ matched ∧ startsHttp u = true) ∧
    (unique_urls matched).Pairwise (fun a b => lexLt a b = true) ∧
    (unique_urls matched).Nodup := by
  have hpw : (unique_urls matched).Pairwise (fun a b => lexLt a b = true) :=
    pairwise_sortedSet (matched.filter startsHttp)
  refine ⟨?_, hpw, ?_⟩
  · intro u
    rw [unique_urls, mem_sortedSet, List.mem_filter]
  · refine hpw.imp ?_
    intro a b h
    intro he
    rw [he, lexLt_irrefl] at h
    cases h

/-! ## Theorems: slug extraction (C4) -/

/-- A string whose lowering is the pattern literal has its length, 15. -/
theorem length_of_lower_gsgPat {m : List Char} (hm : lowerStr m = gsgPat) :
    m.length = 15 := by
  have h := congrArg List.length hm
  simpa [lowerStr] using h

/-- The regex matches at the start of `m ++ (x ++ r)` when `m` lowers to
the pattern literal and `x` starts with a non-delimiter. -/
theorem matchAt_append (m x r : List Char) (hm : lowerStr m = gsgPat)
    (hx : x ≠ []) (hxd : ∀ c ∈ x, isDelim c = false) :
    matchAt (m ++ (x ++ r)) = true := by
  have hlen : m.length = 15 := length_of_lower_gsgPat hm
  have h1 : (m ++ (x ++ r)).take 15 = m := List.take_left' hlen
  have h2 : (m ++ (x ++ r)).drop 15 = x ++ r := List.drop_left' hlen
  cases x with
  | nil => exact absurd rfl hx
  | cons c cx =>
    rw [matchAt, h1, if_pos hm, h2]
    show (!(isDelim c)) = true
    rw [hxd c (List.mem_cons_self c cx)]
    rfl

/-- `scanSlug` on a match at the head returns the captured group. -/
theorem scanSlug_pos {s : List Char} (hne : s ≠ []) (h : matchAt s = true) :
    scanSlug s = some ((s.drop 15).takeWhile (fun d => !(isDelim d))) := by
  cases s with
  | nil => exact absurd rfl hne
  | cons c cs => rw [scanSlug, if_pos h]

/-- `scanSlug` steps past a non-matching head position. -/
theorem scanSlug_step {c : Char} {cs : List Char} (h : matchAt (c :: cs) = false) :
    scanSlug (c :: cs) = scanSlug cs := by
  rw [scanSlug, if_neg]
  rw [h]
  exact Bool.false_ne_true

/-- `takeWhile` passes over a block that satisfies the predicate. -/
theorem takeWhile_append_all {p : Char → Bool} (x r : List Char)
    (hx : ∀ c ∈ x, p c = true) :
    (x ++ r).takeWhile p = x ++ r.takeWhile p := by
  induction x with
  | nil => rfl
  | cons c cx ih =>
    rw [List.cons_append, List.takeWhile_cons, hx c (List.mem_cons_self c cx)]
    rw [ih (fun d hd => hx d (List.mem_cons_of_mem c hd))]
    rfl

/-- The captured group of the match `m ++ (x ++ r)` is exactly `x` when
`x` is a nonempty run of non-delimiters and the remainder `r` is empty
or starts with a delimiter. -/
theorem takeWhile_slug (x r : List Char) (hxd : ∀ c ∈ x, isDelim c = false)
    (hr : ∀ c ∈ r.take 1, isDelim c = true) :
    (x ++ r).takeWhile (fun d => !(isDelim d)) = x := by
  rw [takeWhile_append_all x r (fun c hc => by rw [hxd c hc]; rfl)]
  cases r with
  | nil => rw [List.takeWhile_nil, List.append_nil]
  | cons c rs =>
    rw [List.takeWhile_cons, hr c (by simp)]
    simp

/-- The leftmost match of the scan over `p ++ (m ++ (x ++ r))` captures
exactly `x` when no position inside `p` matches. -/
theorem scanSlug_append (p m x r : List Char) (hm : lowerStr m = gsgPat)
    (hx : x ≠ []) (hxd : ∀ c ∈ x, isDelim c = false)
    (hr : ∀ c ∈ r.take 1, isDelim c = true)
    (hp : ∀ i, i < p.length → matchAt ((p ++ (m ++ (x ++ r))).drop i) = false) :
    scanSlug (p ++ (m ++ (x ++ r))) = some x := by
  induction p with
  | nil =>
    rw [List.nil_append]
    have hm0 : m ≠ [] := by
      intro h
      rw [h] at hm
      cases hm
    have hne : m ++ (x ++ r) ≠ [] := by
      cases m with
      | nil => exact absurd rfl hm0
      | cons a ms => exact List.cons_ne_nil a (ms ++ (x ++ r))
    rw [scanSlug_pos hne (matchAt_append m x r hm hx hxd)]
    rw [List.drop_left' (length_of_lower_gsgPat hm)]
    rw [takeWhile_slug x r hxd hr]
  | cons a p' ih =>
    have h0 : matchAt (a :: (p' ++ (m ++ (x ++ r)))) = false := by
      have := hp 0 (Nat.succ_pos p'.length)
      simpa using this
    rw [List.cons_append, scanSlug_step h0]
    refine ih ?_
    intro i hi
    have := hp (i + 1) (by simpa using Nat.succ_lt_succ hi)
    simpa [List.drop_succ_cons] using this

/-- C4: every input of the shape `p ++ m ++ x ++ r` — where `m` is the
marker `givesendgo.com/` in any letter case, `x` is a nonempty run free
of `/`, `?`, `#`, the rest `r` is empty or starts with one of those
delimiters, and no earlier position of the input matches the pattern —
has its slug extracted as exactly `x`. -/
theorem extract_slug_spec (p m x r : List Char) (hm : lowerStr m = gsgPat)
    (hx : x ≠ []) (hxd : ∀ c ∈ x, isDelim c = false)
    (hr : ∀ c ∈ r.take 1, isDelim c = true)
    (hp : ∀ i, i < p.length → matchAt ((p ++ (m ++ (x ++ r))).drop i) = false) :
    extract_slug (p ++ (m ++ (x ++ r))) = x := by
  rw [extract_slug, scanSlug_append p m x r hm hx hxd hr hp]

/-- `extract_slug_spec` at a concrete case-mixed URL. -/
theorem extract_slug_spec_witness :
    extract_slug ("https://www.".toList ++
      ("GiveSendGo.COM/".toList ++ ("Camp-42".toList ++ "?ref=1".toList))) =
      "Camp-42".toList :=
  extract_slug_spec "https://www.".toList "GiveSendGo.COM/".toList
    "Camp-42".toList "?ref=1".toList (by decide) (by decide) (by decide)
    (by decide) (by decide)

/-! ## Character-level facts about the ASCII case mapping -/

/-- Packing a valid code point round-trips through `Char.ofNat`. -/
theorem char_toNat_ofNat_valid {n : Nat} (h : n.isValidChar) :
    (Char.ofNat n).toNat = n := by
  unfold Char.ofNat
  rw [dif_pos h]
  rfl

/-- `Char.toLower` on an upper-case letter shifts the code point by 32. -/
theorem toLower_of_upper {c : Char} (h : 65 ≤ c.toNat ∧ c.toNat ≤ 90) :
    Char.toLower c = Char.ofNat (c.toNat + 32) := by
  unfold Char.toLower
  rw [if_pos h]

/-- `Char.toLower` fixes everything that is not an upper-case letter. -/
theorem toLower_of_not_upper {c : Char} (h : ¬(65 ≤ c.toNat ∧ c.toNat ≤ 90)) :
    Char.toLower c = c := by
  unfold Char.toLower
  rw [if_neg h]

/-- The code point of the lowered form of an upper-case letter. -/
theorem toNat_toLower_of_upper {c : Char} (h : 65 ≤ c.toNat ∧ c.toNat ≤ 90) :
    (Char.toLower c).toNat = c.toNat + 32 := by
  rw [toLower_of_upper h]
  exact char_toNat_ofNat_valid (Or.inl (by omega))

/-- The ASCII case mapping is idempotent. -/
theorem toLower_idem (c : Char) :
    Char.toLower (Char.toLower c) = Char.toLower c := by
  by_cases h : 65 ≤ c.toNat ∧ c.toNat ≤ 90
  · have hn : (Char.toLower c).toNat = c.toNat + 32 := toNat_toLower_of_upper h
    apply toLower_of_not_upper
    rw [hn]
    omega
  · rw [toLower_of_not_upper h]
    exact toLower_of_not_upper h

/-- Only `'/'` lowers to `'/'`. -/
theorem toLower_eq_slash {c : Char} (h : Char.toLower c = '/') : c = '/' := by
  by_cases hu : 65 ≤ c.toNat ∧ c.toNat ≤ 90
  · have hn := toNat_toLower_of_upper hu
    rw [h] at hn
    have h47 : ('/' : Char).toNat = 47 := rfl
    omega
  · rw [toLower_of_not_upper hu] at h
    exact h

/-! ## Theorems: slug extraction is not idempotent (C5) -/

/-- Failure of the whole scan is failure of the match test at every
position. -/
theorem scanSlug_eq_none_iff (s : List Char) :
    scanSlug s = none ↔ ∀ i, matchAt (s.drop i) = false := by
  induction s with
  | nil =>
    constructor
    · intro _ i
      rw [List.drop_nil]
      rfl
    · intro _
      rfl
  | cons c cs ih =>
    constructor
    · intro h
      have hm : matchAt (c :: cs) = false := by
        by_cases hm' : matchAt (c :: cs) = true
        · rw [scanSlug, if_pos hm'] at h
          cases h
        · simpa using hm'
      intro i
      cases i with
      | zero => exact hm
      | succ j =>
        rw [List.drop_succ_cons]
        rw [scanSlug_step hm] at h
        exact (ih.1 h) j
    · intro h
      rw [scanSlug_step (h 0)]
      refine ih.2 ?_
      intro i
      have := h (i + 1)
      rwa [List.drop_succ_cons] at this

/-- A match inside a prefix `take j u` is a match in `u` itself. -/
theorem matchAt_of_take {j : Nat} {u : List Char}
    (h : matchAt (u.take j) = true) : matchAt u = true := by
  rw [matchAt] at h
  by_cases hc : lowerStr ((u.take j).take 15) = gsgPat
  · rw [if_pos hc] at h
    cases hdrop : (u.take j).drop 15 with
    | nil =>
      rw [hdrop] at h
      cases h
    | cons c t =>
      rw [hdrop] at h
      have hlen : 16 ≤ (u.take j).length := by
        have hl := congrArg List.length hdrop
        rw [List.length_drop] at hl
        simp only [List.length_cons] at hl
        omega
      have hj : 16 ≤ j ∧ 16 ≤ u.length := by
        rw [List.length_take] at hlen
        omega
      have h15 : (u.take j).take 15 = u.take 15 := by
        rw [List.take_take, Nat.min_eq_left (by omega)]
      have hd : ∃ t2, u.drop 15 = c :: t2 := by
        have hdt : (u.take j).drop 15 = (u.drop 15).take (j - 15) :=
          List.drop_take j 15 u
        rw [hdt] at hdrop
        cases hu : u.drop 15 with
        | nil =>
          rw [hu] at hdrop
          simp at hdrop
        | cons d t2 =>
          rw [hu] at hdrop
          cases hjj : j - 15 with
          | zero => omega
          | succ k =>
            rw [hjj, List.take_succ_cons] at hdrop
            injection hdrop with hdc _
            rw [hdc]
            exact ⟨t2, rfl⟩
      obtain ⟨t2, hd⟩ := hd
      rw [h15] at hc
      rw [matchAt, if_pos hc, hd]
      exact h
  · rw [if_neg hc] at h
    cases h

/-- A pattern-free string stays pattern-free on every contiguous piece
`take b (drop a ·)` of it. -/
theorem scanSlug_take_drop_none {s : List Char} (h : scanSlug s = none)
    (a b : Nat) : scanSlug ((s.drop a).take b) = none := by
  rw [scanSlug_eq_none_iff] at h ⊢
  intro i
  by_cases hm : matchAt (((s.drop a).take b).drop i) = true
  · rw [List.drop_take] at hm
    have := matchAt_of_take hm
    rw [List.drop_drop] at this
    rw [h (a + i)] at this
    cases this
  · simpa using hm

/-- `dropWhile` drops an initial segment. -/
theorem dropWhile_eq_drop (p : Char → Bool) (s : List Char) :
    ∃ k, s.dropWhile p = s.drop k := by
  induction s with
  | nil => exact ⟨0, rfl⟩
  | cons c cs ih =>
    by_cases h : p c = true
    · obtain ⟨k, hk⟩ := ih
      refine ⟨k + 1, ?_⟩
      rw [List.dropWhile_cons, if_pos h, hk, List.drop_succ_cons]
    · refine ⟨0, ?_⟩
      rw [List.dropWhile_cons, if_neg h, List.drop_zero]

/-- Stripping whitespace takes a contiguous piece of the string. -/
theorem pyStrip_eq_take_drop (s : List Char) :
    ∃ a b, pyStrip s = (s.drop a).take b := by
  obtain ⟨k, hk⟩ := dropWhile_eq_drop isSpaceChar s
  obtain ⟨j, hj⟩ := dropWhile_eq_drop isSpaceChar (s.dropWhile isSpaceChar).reverse
  refine ⟨k, (s.dropWhile isSpaceChar).length - j, ?_⟩
  rw [pyStrip, hj, List.reverse_drop, List.reverse_reverse, List.length_reverse, hk]

/-- A string containing no delimiter — in particular no `'/'` — cannot
contain the pattern, whose literal ends in `'/'`. -/
theorem scanSlug_of_no_delim {t : List Char}
    (ht : ∀ c ∈ t, isDelim c = false) : scanSlug t = none := by
  rw [scanSlug_eq_none_iff]
  intro i
  by_cases h : matchAt (t.drop i) = true
  · rw [matchAt] at h
    by_cases hc : lowerStr ((t.drop i).take 15) = gsgPat
    · have hsl : '/' ∈ gsgPat := by decide
      rw [← hc] at hsl
      obtain ⟨c, hcmem, hlc⟩ := List.mem_map.1 hsl
      have hcc : c = '/' := toLower_eq_slash hlc
      subst hcc
      have hmem : '/' ∈ t :=
        List.drop_subset i t (List.take_subset 15 (t.drop i) hcmem)
      have := ht '/' hmem
      cases this
    · rw [if_neg hc] at h
      cases h
  · simpa using h

/-- A captured group contains no delimiter. -/
theorem scanSlug_some_no_delim {s x : List Char} (h : scanSlug s = some x) :
    ∀ c ∈ x, isDelim c = false := by
  induction s with
  | nil => cases h
  | cons a as ih =>
    by_cases hm : matchAt (a :: as) = true
    · rw [scanSlug, if_pos hm, Option.some_inj] at h
      intro c hc
      rw [← h] at hc
      have := List.mem_takeWhile_imp hc
      simpa using this
    · have hm' : matchAt (a :: as) = false := by simpa using hm
      rw [scanSlug_step hm'] at h
      exact ih h

/-- C5 counterexample: slug extraction is not idempotent — the slug
captured from `"givesendgo.com/ a"` is `" a"`, and a second application
strips it to `"a"`. -/
theorem extract_slug_not_idempotent :
    extract_slug (extract_slug "givesendgo.com/ a".toList) ≠
      extract_slug "givesendgo.com/ a".toList := by decide

/-- C5 (amended): a second application of `extract_slug` strips the
first result: `extract_slug (extract_slug s) = pyStrip (extract_slug s)`
for every input.  The composite is the identity on the first result
exactly when that result carries no surrounding whitespace; on inputs
without the pattern the first application already returns the stripped
input and re-application changes nothing. -/
theorem extract_slug_second_application (s : List Char) :
    extract_slug (extract_slug s) = pyStrip (extract_slug s) := by
  cases hscan : scanSlug s with
  | none =>
    have h1 : extract_slug s = pyStrip s := by rw [extract_slug, hscan]
    obtain ⟨a, b, hab⟩ := pyStrip_eq_take_drop s
    have h2 : scanSlug (pyStrip s) = none := by
      rw [hab]
      exact scanSlug_take_drop_none hscan a b
    rw [h1, extract_slug, h2]
  | some x =>
    have h1 : extract_slug s = x := by rw [extract_slug, hscan]
    rw [h1, extract_slug, scanSlug_of_no_delim (scanSlug_some_no_delim hscan)]

/-! ## Theorems: `reg_domain` (C1, C8, C9) -/

/-- Splitting never yields an empty part list. -/
theorem splitOnDot_ne_nil (s : List Char) : splitOnDot s ≠ [] := by
  cases s with
  | nil => exact List.cons_ne_nil _ _
  | cons c cs =>
    by_cases h : c = '.'
    · rw [splitOnDot, if_pos h]
      exact List.cons_ne_nil _ _
    · rw [splitOnDot, if_neg h]
      cases hs : splitOnDot cs with
      | nil => exact List.cons_ne_nil _ _
      | cons p ps => exact List.cons_ne_nil _ _

/-- Every character of every part of a split came from the string. -/
theorem mem_splitOnDot (s : List Char) :
    ∀ p ∈ splitOnDot s, ∀ c ∈ p, c ∈ s := by
  induction s with
  | nil =>
    intro p hp c hc
    simp only [splitOnDot, List.mem_singleton] at hp
    rw [hp] at hc
    cases hc
  | cons a as ih =>
    intro p hp c hc
    by_cases h : a = '.'
    · rw [splitOnDot, if_pos h] at hp
      rcases List.mem_cons.1 hp with rfl | hp'
      · cases hc
      · exact List.mem_cons_of_mem a (ih p hp' c hc)
    · rw [splitOnDot, if_neg h] at hp
      cases hs : splitOnDot as with
      | nil => exact absurd hs (splitOnDot_ne_nil as)
      | cons q qs =>
        rw [hs] at hp
        rcases List.mem_cons.1 hp with rfl | hp'
        · rcases List.mem_cons.1 hc with rfl | hc'
          · exact List.mem_cons_self c as
          · have hq : q ∈ splitOnDot as := by
              rw [hs]
              exact List.mem_cons_self q qs
            exact List.mem_cons_of_mem a (ih q hq c hc')
        · have hq : p ∈ splitOnDot as := by
            rw [hs]
            exact List.mem_cons_of_mem q hp'
          exact List.mem_cons_of_mem a (ih p hq c hc)

/-- Every character of a dot-join is a dot or came from some part. -/
theorem mem_joinDots : ∀ (l : List (List Char)) (c : Char), c ∈ joinDots l →
    c = '.' ∨ ∃ p, p ∈ l ∧ c ∈ p := by
  intro l
  induction l with
  | nil =>
    intro c hc
    cases hc
  | cons p tail ih =>
    intro c hc
    cases tail with
    | nil =>
      rw [joinDots] at hc
      exact Or.inr ⟨p, List.mem_cons_self p [], hc⟩
    | cons q qs =>
      rw [joinDots] at hc
      rcases List.mem_append.1 hc with hcp | hcr
      · exact Or.inr ⟨p, List.mem_cons_self p _, hcp⟩
      · rcases List.mem_cons.1 hcr with rfl | hcj
        · exact Or.inl rfl
        · rcases ih c hcj with hdot | ⟨q', hq', hcq'⟩
          · exact Or.inl hdot
          · exact Or.inr ⟨q', List.mem_cons_of_mem p hq', hcq'⟩

/-- A string of case-fixed characters is fixed by lowering. -/
theorem map_toLower_eq_self {l : List Char} (h : ∀ c ∈ l, Char.toLower c = c) :
    lowerStr l = l := by
  induction l with
  | nil => rfl
  | cons a t ih =>
    rw [lowerStr, List.map_cons, h a (List.mem_cons_self a t)]
    have ht := ih (fun c hc => h c (List.mem_cons_of_mem a hc))
    rw [lowerStr] at ht
    rw [ht]

/-- Every character `reg_domain` returns is fixed by the case mapping:
it is a `'.'` or survives from the lowered input. -/
theorem reg_domain_chars (s : List Char) :
    ∀ c ∈ reg_domain s, Char.toLower c = c := by
  intro c hc
  have hmemn : ∀ d ∈ pyLstrip wwwChars (lowerStr s), Char.toLower d = d := by
    intro d hd
    have hdl : d ∈ lowerStr s := (List.dropWhile_sublist _).subset hd
    obtain ⟨e, _, hde⟩ := List.mem_map.1 hdl
    rw [← hde]
    exact toLower_idem e
  simp only [reg_domain] at hc
  by_cases h : 2 ≤ (splitOnDot (pyLstrip wwwChars (lowerStr s))).length
  · rw [if_pos h] at hc
    rcases mem_joinDots _ c hc with hdot | ⟨p, hp, hcp⟩
    · rw [hdot]
      decide
    · have hps : p ∈ splitOnDot (pyLstrip wwwChars (lowerStr s)) :=
        List.drop_subset _ _ hp
      exact hmemn c (mem_splitOnDot _ p hps c hcp)
  · rw [if_neg h] at hc
    exact hmemn c hc

/-- C9: `reg_domain` always returns a fully lower-case string — the
lowering happens before everything else — and therefore the result can
differ from an otherwise structurally intact host that carries an
upper-case letter. -/
theorem reg_domain_lowercase :
    (∀ s : List Char, lowerStr (reg_domain s) = reg_domain s) ∧
    reg_domain "Stripe.Com".toList ≠ "Stripe.Com".toList :=
  ⟨fun s => map_toLower_eq_self (reg_domain_chars s), by decide⟩

/-- C8 counterexample: `"A"` is a host with fewer than two labels, yet
`reg_domain` does not return it unchanged — it lowercases it. -/
theorem reg_domain_changes_short_host :
    (splitOnDot "A".toList).length < 2 ∧
    reg_domain "A".toList ≠ "A".toList := by decide

/-- C8 (amended): `reg_domain` is total; on a host whose processed form
has fewer than two labels it returns that processed form — the
lowercased host stripped of its leading `'w'`/`'.'` characters — which
is the input unchanged exactly when the input is already in that shape. -/
theorem reg_domain_worst_case (s : List Char)
    (h1 : lowerStr s = s) (h2 : pyLstrip wwwChars s = s)
    (h3 : (splitOnDot s).length < 2) :
    reg_domain s = s := by
  simp only [reg_domain, h1, h2]
  rw [if_neg (by omega)]

/-- `reg_domain_worst_case` at the classic single-label host. -/
theorem reg_domain_worst_case_witness :
    reg_domain "localhost".toList = "localhost".toList :=
  reg_domain_worst_case "localhost".toList (by decide) (by decide) (by decide)

/-- C1: the three documented examples do hold, but the general claim
fails — `lstrip("www.")` strips the character set `{'w', '.'}`, not a
leading `"www."` label, so on the two-label host `"wow.com"` the
fallback path returns `"ow.com"` instead of the registrable domain
`"wow.com"`, contradicting the function's docstring and the spec. -/
theorem reg_domain_lstrip_bug :
    reg_domain "js.stripe.com".toList = "stripe.com".toList ∧
    reg_domain "www.paypal.com".toList = "paypal.com".toList ∧
    reg_domain "checkout.adyen.com".toList = "adyen.com".toList ∧
    reg_domain "wow.com".toList = "ow.com".toList ∧
    reg_domain "wow.com".toList ≠ "wow.com".toList := by decide

/-! ## Theorems: the HAR output path (C10) -/

/-- C10: for a pattern-free target the stripped input is embedded
verbatim in the HAR file name, and for the slash-carrying target
`"a/b"` the resulting path is not a direct child of the fixed output
directory. -/
theorem har_name_embeds_input :
    (∀ t : List Char, scanSlug t = none →
      harFileName t = "pmtproc_".toList ++ (pyStrip t ++ "_monitor.har".toList)) ∧
    ¬ isDirectChild HAR_DIR (harPath "a/b".toList) := by
  constructor
  · intro t ht
    rw [harFileName, extract_slug, ht, List.append_assoc]
  · rintro ⟨name, h1, h2⟩
    have hpath : harPath "a/b".toList =
        HAR_DIR ++ '/' :: "pmtproc_a/b_monitor.har".toList := by decide
    rw [hpath] at h1
    have h3 : '/' :: "pmtproc_a/b_monitor.har".toList = '/' :: name :=
      List.append_cancel_left h1
    injection h3 with _ h4
    rw [← h4] at h2
    exact h2 (by decide)

/-- `har_name_embeds_input` at a concrete pattern-free slug. -/
theorem har_name_embeds_input_witness :
    harFileName "my-campaign".toList =
      "pmtproc_".toList ++ (pyStrip "my-campaign".toList ++ "_monitor.har".toList) :=
  har_name_embeds_input.1 "my-campaign".toList (by decide)

end Pmtproc
